import Mathlib

/-!
Shallow embedding of the layout reconstruction engine of `src/pdf/main_3.py`
(classes `GeometryUtils`, `ColumnDetector`, `LayoutEngine`).

Coordinates are modelled as rationals (`ℚ`), idealising Python float
arithmetic.  The concrete thresholds that the detector derives from float
expressions (`int(bins * 0.20) = 80`, `int(bins * 0.80) = 320`,
`bins * 0.02 = 8.0`) are exact under IEEE double semantics, so they are
written as the integers the Python program actually computes.
-/

namespace PdfLayout

/-- An axis-aligned bounding box `[x0, y0, x1, y1]` as used throughout
`main_3.py` (origin top-left, `y` increasing downward). -/
structure Box where
  x0 : ℚ
  y0 : ℚ
  x1 : ℚ
  y1 : ℚ
  deriving DecidableEq, Repr

/-- A raw item / line / block: `{'text': ..., 'box': ...}` dictionaries of
`main_3.py` all have this shape. -/
structure Item where
  text : String
  box : Box
  deriving DecidableEq, Repr

/-- `GeometryUtils.merge_boxes`: `[min x0, min y0, max x1, max y1]` over a
list of boxes, `[0,0,0,0]` for the empty list. -/
def mergeBoxes : List Box → Box
  | [] => ⟨0, 0, 0, 0⟩
  | b :: bs =>
    ⟨(bs.map Box.x0).foldl min b.x0, (bs.map Box.y0).foldl min b.y0,
     (bs.map Box.x1).foldl max b.x1, (bs.map Box.y1).foldl max b.y1⟩

/-- Python `int(...)` applied to a rational: truncation toward zero. -/
def pyInt (q : ℚ) : ℤ :=
  if q < 0 then ⌈q⌉ else ⌊q⌋

/-- First histogram bin covered by a box:
`max(0, int((box[0] / page_width) * bins))` with `bins = 400`. -/
def binStart (page_width : ℚ) (b : Box) : ℤ :=
  max 0 (pyInt (b.x0 / page_width * 400))

/-- One-past-last histogram bin covered by a box:
`min(bins, int((box[2] / page_width) * bins))`; a negative slice end wraps
around, as for the numpy slice `density_map[start:end]`. -/
def binEnd (page_width : ℚ) (b : Box) : ℤ :=
  let e := min 400 (pyInt (b.x1 / page_width * 400))
  if e < 0 then 400 + e else e

/-- The "Smart Filtering" pass of `ColumnDetector.find_split_x`: drop boxes
whose top edge lies in the top 15% of the page and boxes wider than 85% of
the page width; if that removes everything, fall back to the original list. -/
def validBoxesOf (boxes : List Box) (page_width page_height : ℚ) : List Box :=
  let valid := boxes.filter fun b =>
    !(decide (b.y0 < page_height * 0.15) || decide (b.x1 - b.x0 > page_width * 0.85))
  if valid.isEmpty then boxes else valid

/-- The density histogram of `find_split_x`: bin `i` is occupied iff some
retained box's slice `[start:end)` covers it. -/
def occBin (boxes : List Box) (page_width page_height : ℚ) (i : ℕ) : Bool :=
  (validBoxesOf boxes page_width page_height).any fun b =>
    decide (binStart page_width b ≤ (i : ℤ)) && decide ((i : ℤ) < binEnd page_width b)

/-- The gap-collecting loop of `find_split_x`: scan the given bin indices in
order, opening a run at the first unoccupied bin, closing it as `(start, i)`
at the next occupied bin `i`, and closing a still-open run as
`(start, stop)` after the loop. -/
def gapScan (occ : ℕ → Bool) (stop : ℕ) : List ℕ → Option ℕ → List (ℕ × ℕ)
  | [], none => []
  | [], some s => [(s, stop)]
  | i :: rest, none =>
    if occ i then gapScan occ stop rest none else gapScan occ stop rest (some i)
  | i :: rest, some s =>
    if occ i then (s, i) :: gapScan occ stop rest none else gapScan occ stop rest (some s)

/-- All maximal runs of unoccupied bins inside the search window
`range(int(bins*0.20), int(bins*0.80)) = [80, 320)`. -/
def gapsOf (boxes : List Box) (page_width page_height : ℚ) : List (ℕ × ℕ) :=
  gapScan (occBin boxes page_width page_height) 320 (List.range' 80 240) none

/-- One step of Python's `max(gaps, key=lambda g: g[1] - g[0])`: keep the
current best unless the next gap is strictly wider (ties keep the first). -/
def widerGap (best g : ℕ × ℕ) : ℕ × ℕ :=
  if best.2 - best.1 < g.2 - g.1 then g else best

/-- `max(gaps, key=lambda g: g[1] - g[0])`, `none` on the empty list. -/
def widestGapOf : List (ℕ × ℕ) → Option (ℕ × ℕ)
  | [] => none
  | g :: gs => some (gs.foldl widerGap g)

/-- Step 5 of `find_split_x`: accept the widest gap only if it is wider than
`bins * 0.02 = 8` bins, and convert its midpoint bin back to a page
coordinate; `none` both when there is no gap and when the widest is too
narrow. -/
def splitFromGap (page_width : ℚ) : Option (ℕ × ℕ) → Option ℚ
  | none => none
  | some widest =>
    let gap_width_bins := widest.2 - widest.1
    if 8 < gap_width_bins then
      some ((((widest.1 : ℚ) + (gap_width_bins : ℚ) / 2) / 400) * page_width)
    else
      none

/-- `ColumnDetector.find_split_x`: histogram, gap scan, widest-gap selection
and threshold. -/
def find_split_x (boxes : List Box) (page_width page_height : ℚ) : Option ℚ :=
  splitFromGap page_width (widestGapOf (gapsOf boxes page_width page_height))

/-! ### Clustering -/

/-- The greedy grouping loop shared by line and block formation: `cur` is the
growing current group; a new element either joins it (when `ok` accepts) or
closes it and starts a fresh group. -/
def clusterGo {α : Type} (ok : List α → α → Bool) : List α → List α → List (List α)
  | cur, [] => [cur]
  | cur, y :: ys =>
    if ok cur y then clusterGo ok (cur ++ [y]) ys
    else cur :: clusterGo ok [y] ys

/-- Group a list greedily, starting a first group at the head. -/
def clusterGroups {α : Type} (ok : List α → α → Bool) : List α → List (List α)
  | [] => []
  | x :: xs => clusterGo ok [x] xs

/-- Ordering of items by the top edge `box[1]` used by both
`raw_items.sort(key=lambda x: x['box'][1])` and `lines.sort(...)`. -/
def byY0 (a b : Item) : Prop := a.box.y0 ≤ b.box.y0

instance : DecidableRel byY0 := fun a b =>
  inferInstanceAs (Decidable (a.box.y0 ≤ b.box.y0))

instance : IsTotal Item byY0 := ⟨fun a b => le_total a.box.y0 b.box.y0⟩

instance : IsTrans Item byY0 := ⟨fun _ _ _ h h' => le_trans h h'⟩

/-- Ordering of items by the left edge `box[0]` used by
`items.sort(key=lambda x: x['box'][0])` in `_merge_items`. -/
def byX0 (a b : Item) : Prop := a.box.x0 ≤ b.box.x0

instance : DecidableRel byX0 := fun a b =>
  inferInstanceAs (Decidable (a.box.x0 ≤ b.box.x0))

/-- `LayoutEngine._merge_items`: union box of the members, then the members'
texts joined with `join_char` after a stable sort by left edge. -/
def mergeItems (join_char : String) (items : List Item) : Item :=
  { text := String.intercalate join_char ((List.insertionSort byX0 items).map Item.text)
    box := mergeBoxes (items.map Item.box) }

/-- The vertical overlap ratio of the line-formation loop:
`max(0, min(y1) - max(y0)) / min(heights)`, and `0` when the smaller height
is not positive. -/
def overlapRatio (last item : Box) : ℚ :=
  let overlap_h := max 0 (min last.y1 item.y1 - max last.y0 item.y0)
  let min_h := min (last.y1 - last.y0) (item.y1 - item.y0)
  if 0 < min_h then overlap_h / min_h else 0

/-- The "STRICT BARRIER CHECK (Horizontal)" of `process_page`.  Python's
`if split_x:` is falsy both for `None` and for `0.0`, so the check only
fires for a nonzero split. -/
def lineCrossesBarrier (split : Option ℚ) (last item : Box) : Bool :=
  match split with
  | none => false
  | some split_x =>
    if split_x = 0 then false
    else
      let buff : ℚ := 5
      let is_left_last := decide (last.x1 < split_x + buff)
      let is_right_item := decide (item.x0 > split_x - buff)
      let is_right_last := decide (last.x0 > split_x - buff)
      let is_left_item := decide (item.x1 < split_x + buff)
      (is_left_last && is_right_item) || (is_right_last && is_left_item)

/-- The merge decision of the line-formation loop:
`overlap_ratio > 0.4 and h_gap < 50 and not crosses_barrier`. -/
def lineMergeB (split : Option ℚ) (last item : Item) : Bool :=
  decide (overlapRatio last.box item.box > 0.4) &&
    decide (item.box.x0 - last.box.x1 < 50) &&
    !(lineCrossesBarrier split last.box item.box)

/-- Acceptance test fed to the grouping loop for lines: compare the candidate
against the last member of the current group. -/
def lineOk (split : Option ℚ) (cur : List Item) (item : Item) : Bool :=
  match cur.getLast? with
  | none => true
  | some last => lineMergeB split last item

/-- The per-line fragment groups built by step 2 of `process_page`
(fragments sorted by top edge, then greedily grouped). -/
def lineGroupsOf (split : Option ℚ) (items : List Item) : List (List Item) :=
  clusterGroups (lineOk split) (List.insertionSort byY0 items)

/-- Step 2 of `process_page`: the produced lines. -/
def clusterLines (split : Option ℚ) (items : List Item) : List Item :=
  (lineGroupsOf split items).map (mergeItems " ")

/-- Horizontal center of a box, `box[0] + (box[2] - box[0]) / 2`. -/
def boxCenter (b : Box) : ℚ := b.x0 + (b.x1 - b.x0) / 2

/-- The "STRICT BARRIER CHECK (Vertical)" of `_cluster_vertical`: compare the
side of the current block's union-box center with the side of the candidate
line's center.  Again `if split_x:` skips the check for a zero split. -/
def blockCrossesBarrier (split : Option ℚ) (cur : List Item) (line : Item) : Bool :=
  match split with
  | none => false
  | some split_x =>
    if split_x = 0 then false
    else
      let block_box := mergeBoxes (cur.map Item.box)
      let block_center := boxCenter block_box
      let line_center := boxCenter line.box
      decide (block_center < split_x) != decide (line_center < split_x)

/-- The merge decision of `_cluster_vertical` against the last line of the
current block: adaptive vertical-gap threshold, relaxed edge alignment, and
the vertical barrier check. -/
def blockMergeB (global_avg_h : ℚ) (split : Option ℚ) (cur : List Item) (line : Item) : Bool :=
  match cur.getLast? with
  | none => true
  | some last_line =>
    let v_gap := line.box.y0 - last_line.box.y1
    let h_prev := last_line.box.y1 - last_line.box.y0
    let h_curr := line.box.y1 - line.box.y0
    let dominant_h := max h_prev h_curr
    let multiplier : ℚ := if dominant_h < global_avg_h then 1.5 else 2.0
    let threshold := max (dominant_h * multiplier) 5.0
    let is_close := decide (v_gap < threshold)
    let left_diff := |line.box.x0 - last_line.box.x0|
    let right_diff := |line.box.x1 - last_line.box.x1|
    let is_aligned := decide (left_diff < 80) || decide (right_diff < 80)
    is_close && is_aligned && !(blockCrossesBarrier split cur line)

/-- `sum((l['box'][3] - l['box'][1]) for l in lines) / len(lines) if lines else 20`. -/
def globalAvgHeight (lines : List Item) : ℚ :=
  if lines.isEmpty then 20
  else ((lines.map fun l => l.box.y1 - l.box.y0).sum) / (lines.length : ℚ)

/-- The per-block line groups built by `_cluster_vertical` (lines sorted by
top edge, then greedily grouped with the adaptive decision). -/
def blockGroupsOf (split : Option ℚ) (lines : List Item) : List (List Item) :=
  if lines.isEmpty then []
  else
    let sorted := List.insertionSort byY0 lines
    clusterGroups (blockMergeB (globalAvgHeight lines) split) sorted

/-- `LayoutEngine._cluster_vertical`: the produced blocks. -/
def clusterVertical (split : Option ℚ) (lines : List Item) : List Item :=
  (blockGroupsOf split lines).map (mergeItems "\n")

/-- `LayoutEngine.process_page`: detect the split on the raw boxes, form
lines, then blocks; empty input short-circuits to `([], None)`. -/
def processPage (raw_items : List Item) (page_width page_height : ℚ) :
    List Item × Option ℚ :=
  if raw_items.isEmpty then ([], none)
  else
    let split_x := find_split_x (raw_items.map Item.box) page_width page_height
    let lines := clusterLines split_x raw_items
    (clusterVertical split_x lines, split_x)

/-! ### Generic lemmas about the greedy grouping loop -/

theorem clusterGo_join {α : Type} (ok : List α → α → Bool) :
    ∀ (l cur : List α), (clusterGo ok cur l).flatten = cur ++ l := by
  intro l
  induction l with
  | nil => intro cur; simp [clusterGo]
  | cons y ys ih =>
    intro cur
    by_cases h : ok cur y = true
    · simp [clusterGo, h, ih]
    · simp [clusterGo, h, ih]

theorem clusterGroups_join {α : Type} (ok : List α → α → Bool) (l : List α) :
    (clusterGroups ok l).flatten = l := by
  cases l with
  | nil => simp [clusterGroups]
  | cons x xs => simp [clusterGroups, clusterGo_join]

theorem clusterGo_ne_nil {α : Type} (ok : List α → α → Bool) :
    ∀ (l cur : List α), cur ≠ [] → ∀ g ∈ clusterGo ok cur l, g ≠ [] := by
  intro l
  induction l with
  | nil =>
    intro cur hcur g hg
    simp [clusterGo] at hg
    exact hg ▸ hcur
  | cons y ys ih =>
    intro cur hcur g hg
    by_cases h : ok cur y = true
    · exact ih (cur ++ [y]) (by simp) g (by simpa [clusterGo, h] using hg)
    · simp only [clusterGo, h] at hg
      rcases List.mem_cons.mp (by simpa using hg) with rfl | hg'
      · exact hcur
      · exact ih [y] (by simp) g hg'

theorem clusterGroups_ne_nil {α : Type} (ok : List α → α → Bool) (l : List α) :
    ∀ g ∈ clusterGroups ok l, g ≠ [] := by
  cases l with
  | nil => simp [clusterGroups]
  | cons x xs => exact clusterGo_ne_nil ok xs [x] (by simp)

/-! ### Folded minima and maxima -/

theorem foldl_min_le_init (l : List ℚ) (a : ℚ) : l.foldl min a ≤ a := by
  induction l generalizing a with
  | nil => simp
  | cons x xs ih =>
    simpa using le_trans (ih (min a x)) (min_le_left a x)

theorem foldl_min_le_mem {b : ℚ} (l : List ℚ) (a : ℚ) (h : b ∈ l) :
    l.foldl min a ≤ b := by
  induction l generalizing a with
  | nil => cases h
  | cons x xs ih =>
    rcases List.mem_cons.mp h with rfl | h'
    · simpa using le_trans (foldl_min_le_init xs (min a b)) (min_le_right a b)
    · simpa using ih (min a x) h'

theorem foldl_min_eq_init_or_mem (l : List ℚ) (a : ℚ) :
    l.foldl min a = a ∨ l.foldl min a ∈ l := by
  induction l generalizing a with
  | nil => exact Or.inl rfl
  | cons x xs ih =>
    simp only [List.foldl_cons]
    rcases ih (min a x) with h | h
    · rcases min_choice a x with hm | hm
      · exact Or.inl (h.trans hm)
      · exact Or.inr (List.mem_cons.mpr (Or.inl (h.trans hm)))
    · exact Or.inr (List.mem_cons.mpr (Or.inr h))

theorem le_foldl_max_init (l : List ℚ) (a : ℚ) : a ≤ l.foldl max a := by
  induction l generalizing a with
  | nil => simp
  | cons x xs ih =>
    simpa using le_trans (le_max_left a x) (ih (max a x))

theorem mem_le_foldl_max {b : ℚ} (l : List ℚ) (a : ℚ) (h : b ∈ l) :
    b ≤ l.foldl max a := by
  induction l generalizing a with
  | nil => cases h
  | cons x xs ih =>
    rcases List.mem_cons.mp h with rfl | h'
    · simpa using le_trans (le_max_right a b) (le_foldl_max_init xs (max a b))
    · simpa using ih (max a x) h'

theorem foldl_max_eq_init_or_mem (l : List ℚ) (a : ℚ) :
    l.foldl max a = a ∨ l.foldl max a ∈ l := by
  induction l generalizing a with
  | nil => exact Or.inl rfl
  | cons x xs ih =>
    simp only [List.foldl_cons]
    rcases ih (max a x) with h | h
    · rcases max_choice a x with hm | hm
      · exact Or.inl (h.trans hm)
      · exact Or.inr (List.mem_cons.mpr (Or.inl (h.trans hm)))
    · exact Or.inr (List.mem_cons.mpr (Or.inr h))

/-! ### C7: the merged box is exactly the coordinatewise union -/

/-- Helper form of C7, shared by later proofs. -/
theorem mergeBoxes_union (boxes : List Box) (hne : boxes ≠ []) :
    ((mergeBoxes boxes).x0 ∈ boxes.map Box.x0 ∧
        ∀ b ∈ boxes, (mergeBoxes boxes).x0 ≤ b.x0) ∧
      ((mergeBoxes boxes).y0 ∈ boxes.map Box.y0 ∧
        ∀ b ∈ boxes, (mergeBoxes boxes).y0 ≤ b.y0) ∧
      ((mergeBoxes boxes).x1 ∈ boxes.map Box.x1 ∧
        ∀ b ∈ boxes, b.x1 ≤ (mergeBoxes boxes).x1) ∧
      ((mergeBoxes boxes).y1 ∈ boxes.map Box.y1 ∧
        ∀ b ∈ boxes, b.y1 ≤ (mergeBoxes boxes).y1) := by
  cases boxes with
  | nil => exact absurd rfl hne
  | cons b bs =>
    refine ⟨⟨?_, ?_⟩, ⟨?_, ?_⟩, ⟨?_, ?_⟩, ⟨?_, ?_⟩⟩
    · rcases foldl_min_eq_init_or_mem (bs.map Box.x0) b.x0 with h | h
      · exact List.mem_cons.mpr (Or.inl (by simpa [mergeBoxes] using h))
      · exact List.mem_cons.mpr (Or.inr (by simpa [mergeBoxes] using h))
    · intro b' hb'
      rcases List.mem_cons.mp hb' with rfl | hb'
      · exact foldl_min_le_init _ _
      · exact foldl_min_le_mem _ _ (List.mem_map.mpr ⟨b', hb', rfl⟩)
    · rcases foldl_min_eq_init_or_mem (bs.map Box.y0) b.y0 with h | h
      · exact List.mem_cons.mpr (Or.inl (by simpa [mergeBoxes] using h))
      · exact List.mem_cons.mpr (Or.inr (by simpa [mergeBoxes] using h))
    · intro b' hb'
      rcases List.mem_cons.mp hb' with rfl | hb'
      · exact foldl_min_le_init _ _
      · exact foldl_min_le_mem _ _ (List.mem_map.mpr ⟨b', hb', rfl⟩)
    · rcases foldl_max_eq_init_or_mem (bs.map Box.x1) b.x1 with h | h
      · exact List.mem_cons.mpr (Or.inl (by simpa [mergeBoxes] using h))
      · exact List.mem_cons.mpr (Or.inr (by simpa [mergeBoxes] using h))
    · intro b' hb'
      rcases List.mem_cons.mp hb' with rfl | hb'
      · exact le_foldl_max_init _ _
      · exact mem_le_foldl_max _ _ (List.mem_map.mpr ⟨b', hb', rfl⟩)
    · rcases foldl_max_eq_init_or_mem (bs.map Box.y1) b.y1 with h | h
      · exact List.mem_cons.mpr (Or.inl (by simpa [mergeBoxes] using h))
      · exact List.mem_cons.mpr (Or.inr (by simpa [mergeBoxes] using h))
    · intro b' hb'
      rcases List.mem_cons.mp hb' with rfl | hb'
      · exact le_foldl_max_init _ _
      · exact mem_le_foldl_max _ _ (List.mem_map.mpr ⟨b', hb', rfl⟩)

/-- **C7.**  For every non-empty list of boxes, `merge_boxes` returns exactly
`(min x0, min y0, max x1, max y1)` over its members: each of the four result
coordinates is attained by a member and bounds every member, so no member box
extends outside the merged box in any coordinate. -/
theorem c7_merged_box_is_union (boxes : List Box) (hne : boxes ≠ []) :
    ((mergeBoxes boxes).x0 ∈ boxes.map Box.x0 ∧
        ∀ b ∈ boxes, (mergeBoxes boxes).x0 ≤ b.x0) ∧
      ((mergeBoxes boxes).y0 ∈ boxes.map Box.y0 ∧
        ∀ b ∈ boxes, (mergeBoxes boxes).y0 ≤ b.y0) ∧
      ((mergeBoxes boxes).x1 ∈ boxes.map Box.x1 ∧
        ∀ b ∈ boxes, b.x1 ≤ (mergeBoxes boxes).x1) ∧
      ((mergeBoxes boxes).y1 ∈ boxes.map Box.y1 ∧
        ∀ b ∈ boxes, b.y1 ≤ (mergeBoxes boxes).y1) :=
  mergeBoxes_union boxes hne

/-- Witness for C7 at a concrete two-element box list. -/
theorem c7_witness :
    ((mergeBoxes [⟨0, 1, 2, 3⟩, ⟨1, 0, 3, 2⟩]).x0 ∈
        ([⟨0, 1, 2, 3⟩, ⟨1, 0, 3, 2⟩] : List Box).map Box.x0 ∧
      ∀ b ∈ ([⟨0, 1, 2, 3⟩, ⟨1, 0, 3, 2⟩] : List Box),
        (mergeBoxes [⟨0, 1, 2, 3⟩, ⟨1, 0, 3, 2⟩]).x0 ≤ b.x0) ∧
    ((mergeBoxes [⟨0, 1, 2, 3⟩, ⟨1, 0, 3, 2⟩]).y0 ∈
        ([⟨0, 1, 2, 3⟩, ⟨1, 0, 3, 2⟩] : List Box).map Box.y0 ∧
      ∀ b ∈ ([⟨0, 1, 2, 3⟩, ⟨1, 0, 3, 2⟩] : List Box),
        (mergeBoxes [⟨0, 1, 2, 3⟩, ⟨1, 0, 3, 2⟩]).y0 ≤ b.y0) ∧
    ((mergeBoxes [⟨0, 1, 2, 3⟩, ⟨1, 0, 3, 2⟩]).x1 ∈
        ([⟨0, 1, 2, 3⟩, ⟨1, 0, 3, 2⟩] : List Box).map Box.x1 ∧
      ∀ b ∈ ([⟨0, 1, 2, 3⟩, ⟨1, 0, 3, 2⟩] : List Box),
        b.x1 ≤ (mergeBoxes [⟨0, 1, 2, 3⟩, ⟨1, 0, 3, 2⟩]).x1) ∧
    ((mergeBoxes [⟨0, 1, 2, 3⟩, ⟨1, 0, 3, 2⟩]).y1 ∈
        ([⟨0, 1, 2, 3⟩, ⟨1, 0, 3, 2⟩] : List Box).map Box.y1 ∧
      ∀ b ∈ ([⟨0, 1, 2, 3⟩, ⟨1, 0, 3, 2⟩] : List Box),
        b.y1 ≤ (mergeBoxes [⟨0, 1, 2, 3⟩, ⟨1, 0, 3, 2⟩]).y1) :=
  c7_merged_box_is_union [⟨0, 1, 2, 3⟩, ⟨1, 0, 3, 2⟩] (by decide)

/-! ### C5: the line-merge decision -/

/-- **C5.**  A candidate fragment joins the current line iff its vertical
overlap ratio with the last fragment of the group exceeds `0.4`, its
horizontal gap (`candidate x0 - last x1`) is below `50`, and no barrier
crossing is flagged; and whenever the smaller of the two fragment heights is
zero the overlap ratio is `0` (the division is guarded). -/
theorem c5_line_merge_condition (split : Option ℚ) (last item : Item) :
    (lineMergeB split last item = true ↔
      0.4 < overlapRatio last.box item.box ∧
        item.box.x0 - last.box.x1 < 50 ∧
        lineCrossesBarrier split last.box item.box = false) ∧
    (min (last.box.y1 - last.box.y0) (item.box.y1 - item.box.y0) = 0 →
      overlapRatio last.box item.box = 0) := by
  constructor
  · simp [lineMergeB, Bool.and_eq_true, decide_eq_true_iff, Bool.not_eq_true',
      and_assoc, gt_iff_lt]
  · intro h
    simp [overlapRatio, h]

/-- Witness for C5: a degenerate zero-height fragment produces overlap
ratio `0`. -/
theorem c5_witness :
    overlapRatio ⟨0, 0, 10, 0⟩ ⟨0, 0, 10, 5⟩ = 0 :=
  (c5_line_merge_condition none ⟨"a", ⟨0, 0, 10, 0⟩⟩ ⟨"b", ⟨0, 0, 10, 5⟩⟩).2
    (by norm_num [min_def])

/-! ### C6: the block-merge decision -/

theorem boxCenter_nonneg {b : Box} (h0 : 0 ≤ b.x0) (h1 : 0 ≤ b.x1) :
    0 ≤ boxCenter b := by
  simp only [boxCenter]
  linarith

theorem mergeBoxes_center_nonneg (cur : List Item) (hne : cur ≠ [])
    (h : ∀ it ∈ cur, 0 ≤ it.box.x0 ∧ it.box.x0 ≤ it.box.x1) :
    0 ≤ boxCenter (mergeBoxes (cur.map Item.box)) := by
  have hne' : cur.map Item.box ≠ [] := by
    simpa using hne
  obtain ⟨⟨hx0mem, _⟩, _, ⟨hx1mem, _⟩, _⟩ := mergeBoxes_union (cur.map Item.box) hne'
  refine boxCenter_nonneg ?_ ?_
  · rcases List.mem_map.mp hx0mem with ⟨b, hb, hbe⟩
    rcases List.mem_map.mp hb with ⟨it, hit, rfl⟩
    exact hbe ▸ (h it hit).1
  · rcases List.mem_map.mp hx1mem with ⟨b, hb, hbe⟩
    rcases List.mem_map.mp hb with ⟨it, hit, rfl⟩
    exact hbe ▸ le_trans (h it hit).1 (le_trans (h it hit).2 le_rfl)

/-- **C6.**  A candidate line joins the current block iff the vertical gap to
the block's last line is below `max(dominant_height * multiplier, 5.0)` with
multiplier `1.5` for `dominant_height < global_avg_height` and `2.0`
otherwise, at least one of the left-edge or right-edge differences is below
`80`, and — whenever a split is present — the centers of the block's union
box and of the candidate line lie on the same side of the split.  The box
hypotheses are the data-model invariants (`0 ≤ x0 ≤ x1`). -/
theorem c6_block_merge_condition (global_avg_h : ℚ) (split : Option ℚ)
    (cur : List Item) (line last_line : Item)
    (hlast : cur.getLast? = some last_line)
    (hcur : ∀ it ∈ cur, 0 ≤ it.box.x0 ∧ it.box.x0 ≤ it.box.x1)
    (hline : 0 ≤ line.box.x0 ∧ line.box.x0 ≤ line.box.x1) :
    blockMergeB global_avg_h split cur line = true ↔
      (line.box.y0 - last_line.box.y1 <
          max ((max (last_line.box.y1 - last_line.box.y0) (line.box.y1 - line.box.y0)) *
            (if max (last_line.box.y1 - last_line.box.y0) (line.box.y1 - line.box.y0) <
                global_avg_h then 1.5 else 2.0)) 5.0) ∧
        (|line.box.x0 - last_line.box.x0| < 80 ∨ |line.box.x1 - last_line.box.x1| < 80) ∧
        (∀ s, split = some s →
          (boxCenter (mergeBoxes (cur.map Item.box)) < s ↔ boxCenter line.box < s)) := by
  have hcurne : cur ≠ [] := by
    intro h
    rw [h] at hlast
    cases hlast
  rcases split with _ | s
  · have hcross : blockCrossesBarrier none cur line = false := rfl
    simp only [blockMergeB, hlast, hcross, Bool.not_false, Bool.and_true,
      Bool.and_eq_true, decide_eq_true_iff, Bool.or_eq_true]
    constructor
    · rintro ⟨h1, h2⟩
      exact ⟨h1, h2, fun s hs => Option.noConfusion hs⟩
    · rintro ⟨h1, h2, -⟩
      exact ⟨h1, h2⟩
  · by_cases hs : s = 0
    · subst hs
      have hcross : blockCrossesBarrier (some 0) cur line = false := by
        simp [blockCrossesBarrier]
      have hbc : 0 ≤ boxCenter (mergeBoxes (cur.map Item.box)) :=
        mergeBoxes_center_nonneg cur hcurne hcur
      have hlc : 0 ≤ boxCenter line.box :=
        boxCenter_nonneg hline.1 (le_trans hline.1 hline.2)
      simp only [blockMergeB, hlast, hcross, Bool.not_false, Bool.and_true,
        Bool.and_eq_true, decide_eq_true_iff, Bool.or_eq_true]
      constructor
      · rintro ⟨h1, h2⟩
        refine ⟨h1, h2, ?_⟩
        rintro s' hs'
        cases hs'
        exact iff_of_false (not_lt.mpr hbc) (not_lt.mpr hlc)
      · rintro ⟨h1, h2, -⟩
        exact ⟨h1, h2⟩
    · have hcross : blockCrossesBarrier (some s) cur line =
          (decide (boxCenter (mergeBoxes (cur.map Item.box)) < s) !=
            decide (boxCenter line.box < s)) := by
        simp [blockCrossesBarrier, hs]
      simp only [blockMergeB, hlast, hcross, Bool.and_eq_true, decide_eq_true_iff,
        Bool.or_eq_true, Bool.not_eq_true', bne_eq_false_iff_eq, decide_eq_decide]
      constructor
      · rintro ⟨⟨h1, h2⟩, h3⟩
        refine ⟨h1, h2, ?_⟩
        rintro s' hs'
        cases hs'
        exact h3
      · rintro ⟨h1, h2, h3⟩
        exact ⟨⟨h1, h2⟩, h3 s rfl⟩

/-- Witness for C6 at a concrete block and candidate line. -/
theorem c6_witness :
    blockMergeB 10 (some 100) [⟨"l1", ⟨10, 0, 60, 10⟩⟩] ⟨"l2", ⟨12, 12, 58, 22⟩⟩ = true ↔
      ((12 : ℚ) - 10 <
          max ((max ((10 : ℚ) - 0) ((22 : ℚ) - 12)) *
            (if max ((10 : ℚ) - 0) ((22 : ℚ) - 12) < 10 then 1.5 else 2.0)) 5.0) ∧
        (|(12 : ℚ) - 10| < 80 ∨ |(58 : ℚ) - 60| < 80) ∧
        (∀ s, (some (100 : ℚ) : Option ℚ) = some s →
          (boxCenter (mergeBoxes (([⟨"l1", ⟨10, 0, 60, 10⟩⟩] : List Item).map Item.box)) < s ↔
            boxCenter (⟨12, 12, 58, 22⟩ : Box) < s)) :=
  c6_block_merge_condition 10 (some 100) [⟨"l1", ⟨10, 0, 60, 10⟩⟩]
    ⟨"l2", ⟨12, 12, 58, 22⟩⟩ ⟨"l1", ⟨10, 0, 60, 10⟩⟩ rfl
    (by intro it hit; simp only [List.mem_singleton] at hit; subst hit; norm_num)
    (by norm_num)

/-! ### The widest-gap selection -/

theorem widerGap_width_left (best g : ℕ × ℕ) :
    best.2 - best.1 ≤ (widerGap best g).2 - (widerGap best g).1 := by
  unfold widerGap
  split <;> omega

theorem widerGap_width_right (best g : ℕ × ℕ) :
    g.2 - g.1 ≤ (widerGap best g).2 - (widerGap best g).1 := by
  unfold widerGap
  split <;> omega

theorem widerGap_eq_or (best g : ℕ × ℕ) :
    widerGap best g = g ∨ widerGap best g = best := by
  unfold widerGap
  split
  · exact Or.inl rfl
  · exact Or.inr rfl

theorem foldl_widerGap_mem :
    ∀ (gs : List (ℕ × ℕ)) (init : ℕ × ℕ),
      gs.foldl widerGap init = init ∨ gs.foldl widerGap init ∈ gs := by
  intro gs
  induction gs with
  | nil => exact fun init => Or.inl rfl
  | cons g gs ih =>
    intro init
    simp only [List.foldl_cons]
    rcases widerGap_eq_or init g with he | he <;> rw [he]
    · rcases ih g with h | h
      · exact Or.inr (List.mem_cons.mpr (Or.inl h))
      · exact Or.inr (List.mem_cons.mpr (Or.inr h))
    · rcases ih init with h | h
      · exact Or.inl h
      · exact Or.inr (List.mem_cons.mpr (Or.inr h))

theorem foldl_widerGap_width :
    ∀ (gs : List (ℕ × ℕ)) (init : ℕ × ℕ),
      (init.2 - init.1 ≤ (gs.foldl widerGap init).2 - (gs.foldl widerGap init).1) ∧
        ∀ p ∈ gs, p.2 - p.1 ≤ (gs.foldl widerGap init).2 - (gs.foldl widerGap init).1 := by
  intro gs
  induction gs with
  | nil => exact fun init => ⟨le_rfl, by simp⟩
  | cons g gs ih =>
    intro init
    obtain ⟨h1, h2⟩ := ih (widerGap init g)
    refine ⟨le_trans (widerGap_width_left init g) h1, ?_⟩
    intro p hp
    rcases List.mem_cons.mp hp with rfl | hp'
    · exact le_trans (widerGap_width_right init p) h1
    · exact h2 p hp'

theorem widestGapOf_mem {l : List (ℕ × ℕ)} {g : ℕ × ℕ}
    (h : widestGapOf l = some g) : g ∈ l := by
  cases l with
  | nil => cases h
  | cons a as =>
    have he : as.foldl widerGap a = g := by
      simpa [widestGapOf] using h
    rcases foldl_widerGap_mem as a with h' | h'
    · exact List.mem_cons.mpr (Or.inl (he.symm.trans h'))
    · exact List.mem_cons.mpr (Or.inr (he ▸ h'))

theorem widestGapOf_ge {l : List (ℕ × ℕ)} {g : ℕ × ℕ}
    (h : widestGapOf l = some g) : ∀ p ∈ l, p.2 - p.1 ≤ g.2 - g.1 := by
  cases l with
  | nil => cases h
  | cons a as =>
    have he : as.foldl widerGap a = g := by
      simpa [widestGapOf] using h
    intro p hp
    rcases List.mem_cons.mp hp with rfl | hp'
    · have := (foldl_widerGap_width as p).1
      rw [he] at this
      exact this
    · have := (foldl_widerGap_width as a).2 p hp'
      rw [he] at this
      exact this

theorem widestGapOf_eq_none {l : List (ℕ × ℕ)} :
    widestGapOf l = none ↔ l = [] := by
  cases l <;> simp [widestGapOf]

/-! ### Bounds on the gaps found by the scanning loop -/

theorem gapScan_bounds (occ : ℕ → Bool) (stop lo : ℕ) :
    ∀ (l : List ℕ) (cur : Option ℕ),
      (∀ i ∈ l, lo ≤ i ∧ i < stop) →
      l.Pairwise (· < ·) →
      (∀ s, cur = some s → lo ≤ s ∧ s < stop ∧ ∀ i ∈ l, s < i) →
      ∀ g ∈ gapScan occ stop l cur, lo ≤ g.1 ∧ g.1 < g.2 ∧ g.2 ≤ stop := by
  intro l
  induction l with
  | nil =>
    intro cur _ _ hcur g hg
    cases cur with
    | none => simp [gapScan] at hg
    | some s =>
      obtain ⟨h1, h2, _⟩ := hcur s rfl
      have : g = (s, stop) := by simpa [gapScan] using hg
      subst this
      exact ⟨h1, h2, le_rfl⟩
  | cons i rest ih =>
    intro cur hb hp hcur g hg
    have hbrest : ∀ j ∈ rest, lo ≤ j ∧ j < stop :=
      fun j hj => hb j (List.mem_cons.mpr (Or.inr hj))
    have hprest : rest.Pairwise (· < ·) := hp.of_cons
    have hbi := hb i (List.mem_cons.mpr (Or.inl rfl))
    cases cur with
    | none =>
      by_cases ho : occ i = true
      · rw [gapScan, if_pos ho] at hg
        exact ih none hbrest hprest (fun s hs => Option.noConfusion hs) g hg
      · rw [gapScan, if_neg ho] at hg
        refine ih (some i) hbrest hprest ?_ g hg
        intro s hs
        cases hs
        exact ⟨hbi.1, hbi.2, fun j hj => List.rel_of_pairwise_cons hp hj⟩
    | some s =>
      obtain ⟨hs1, hs2, hs3⟩ := hcur s rfl
      by_cases ho : occ i = true
      · rw [gapScan, if_pos ho] at hg
        rcases List.mem_cons.mp hg with rfl | hg'
        · exact ⟨hs1, hs3 i (List.mem_cons.mpr (Or.inl rfl)), le_of_lt hbi.2⟩
        · exact ih none hbrest hprest (fun s' hs' => Option.noConfusion hs') g hg'
      · rw [gapScan, if_neg ho] at hg
        refine ih (some s) hbrest hprest ?_ g hg
        intro s' hs'
        cases hs'
        exact ⟨hs1, hs2, fun j hj => lt_trans (hs3 i (List.mem_cons.mpr (Or.inl rfl)))
          (List.rel_of_pairwise_cons hp hj)⟩

theorem gapsOf_bounds (boxes : List Box) (page_width page_height : ℚ) :
    ∀ g ∈ gapsOf boxes page_width page_height, 80 ≤ g.1 ∧ g.1 < g.2 ∧ g.2 ≤ 320 := by
  refine gapScan_bounds _ 320 80 (List.range' 80 240) none ?_ ?_ ?_
  · intro i hi
    rcases List.mem_range'.mp hi with ⟨k, hk, rfl⟩
    omega
  · exact List.pairwise_lt_range' 80 240
  · intro s hs
    cases hs

set_option maxRecDepth 4000 in
theorem gapsOf_nil (page_width page_height : ℚ) :
    gapsOf [] page_width page_height = [(80, 320)] := rfl

theorem find_split_x_nil (page_width page_height : ℚ) :
    find_split_x [] page_width page_height = some (page_width / 2) := by
  unfold find_split_x
  rw [gapsOf_nil]
  show splitFromGap page_width (some (80, 320)) = some (page_width / 2)
  simp only [splitFromGap]
  rw [if_pos (by norm_num : (8 : ℕ) < 320 - 80), Option.some.injEq]
  norm_num
  ring

/-! ### C4: acceptance condition and returned value of the split detector -/

/-- **C4.**  The detector returns a split iff some in-window gap (equivalently,
the widest one) is strictly wider than 2% of the bin count, i.e. `8` of `400`
bins; and the returned value is `(gap_start + gap_width / 2) / 400 * page_width`
for the selected widest gap. -/
theorem c4_split_acceptance (boxes : List Box) (page_width page_height : ℚ) :
    ((find_split_x boxes page_width page_height).isSome ↔
      ∃ g ∈ gapsOf boxes page_width page_height, 8 < g.2 - g.1) ∧
    ∀ x, find_split_x boxes page_width page_height = some x →
      ∃ g, widestGapOf (gapsOf boxes page_width page_height) = some g ∧
        8 < g.2 - g.1 ∧
        x = (((g.1 : ℚ) + ((g.2 - g.1 : ℕ) : ℚ) / 2) / 400) * page_width := by
  unfold find_split_x
  cases hw : widestGapOf (gapsOf boxes page_width page_height) with
  | none =>
    have hnil : gapsOf boxes page_width page_height = [] := widestGapOf_eq_none.mp hw
    rw [hnil]
    constructor
    · simp [splitFromGap]
    · intro x hx
      simp [splitFromGap] at hx
  | some g =>
    simp only [splitFromGap]
    by_cases h8 : 8 < g.2 - g.1
    · rw [if_pos h8]
      constructor
      · simp only [Option.isSome_some, true_iff]
        exact ⟨g, widestGapOf_mem hw, h8⟩
      · intro x hx
        obtain rfl : (((g.1 : ℚ) + ((g.2 - g.1 : ℕ) : ℚ) / 2) / 400) * page_width = x :=
          by simpa using hx
        exact ⟨g, rfl, h8, rfl⟩
    · rw [if_neg h8]
      constructor
      · simp only [Option.isSome_none, Bool.false_eq_true, false_iff, not_exists]
        rintro p ⟨hp, h8'⟩
        exact h8 (lt_of_lt_of_le h8' (widestGapOf_ge hw p hp))
      · intro x hx
        cases hx

/-- Witness for C4: on the empty box list (whole window one gap of width
240 > 8) the returned value `50` matches the midpoint formula. -/
theorem c4_witness :
    ∃ g, widestGapOf (gapsOf [] 100 100) = some g ∧ 8 < g.2 - g.1 ∧
      (50 : ℚ) = (((g.1 : ℚ) + ((g.2 - g.1 : ℕ) : ℚ) / 2) / 400) * 100 :=
  (c4_split_acceptance [] 100 100).2 50
    (by rw [find_split_x_nil]; norm_num)

/-! ### C9: a returned split lies strictly inside the middle window -/

/-- **C9.**  Whenever the detector returns a split for a positive page width,
the split lies strictly between 20% and 80% of the page width. -/
theorem c9_split_in_window (boxes : List Box) (page_width page_height x : ℚ)
    (hW : 0 < page_width)
    (hx : find_split_x boxes page_width page_height = some x) :
    page_width * (20 / 100) < x ∧ x < page_width * (80 / 100) := by
  unfold find_split_x at hx
  cases hw : widestGapOf (gapsOf boxes page_width page_height) with
  | none => rw [hw] at hx; cases hx
  | some g =>
    rw [hw] at hx
    simp only [splitFromGap] at hx
    by_cases h8 : 8 < g.2 - g.1
    · rw [if_pos h8] at hx
      obtain rfl : (((g.1 : ℚ) + ((g.2 - g.1 : ℕ) : ℚ) / 2) / 400) * page_width = x :=
        by simpa using hx
      obtain ⟨hg1, hg2, hg3⟩ := gapsOf_bounds boxes page_width page_height g
        (widestGapOf_mem hw)
      have ha : (80 : ℚ) ≤ (g.1 : ℚ) := by exact_mod_cast hg1
      have hab : (g.1 : ℚ) < (g.2 : ℚ) := by exact_mod_cast hg2
      have hb : (g.2 : ℚ) ≤ 320 := by exact_mod_cast hg3
      have hsub : ((g.2 - g.1 : ℕ) : ℚ) = (g.2 : ℚ) - (g.1 : ℚ) :=
        Nat.cast_sub (le_of_lt hg2)
      rw [hsub]
      constructor
      · have hlt : (20 / 100 : ℚ) < ((g.1 : ℚ) + ((g.2 : ℚ) - (g.1 : ℚ)) / 2) / 400 := by
          linarith
        calc page_width * (20 / 100) < page_width *
              (((g.1 : ℚ) + ((g.2 : ℚ) - (g.1 : ℚ)) / 2) / 400) :=
            mul_lt_mul_of_pos_left hlt hW
          _ = (((g.1 : ℚ) + ((g.2 : ℚ) - (g.1 : ℚ)) / 2) / 400) * page_width :=
            mul_comm _ _
      · have hlt : ((g.1 : ℚ) + ((g.2 : ℚ) - (g.1 : ℚ)) / 2) / 400 < (80 / 100 : ℚ) := by
          linarith
        calc (((g.1 : ℚ) + ((g.2 : ℚ) - (g.1 : ℚ)) / 2) / 400) * page_width =
              page_width * (((g.1 : ℚ) + ((g.2 : ℚ) - (g.1 : ℚ)) / 2) / 400) :=
            mul_comm _ _
          _ < page_width * (80 / 100) := mul_lt_mul_of_pos_left hlt hW
    · rw [if_neg h8] at hx
      cases hx

/-- Witness for C9: the empty box list on a 100-wide page yields split `50`,
which lies strictly between `20` and `80`. -/
theorem c9_witness :
    (100 : ℚ) * (20 / 100) < 50 ∧ (50 : ℚ) < 100 * (80 / 100) :=
  c9_split_in_window [] 100 100 50 (by norm_num)
    (by rw [find_split_x_nil]; norm_num)

/-! ### C3: the detector on an empty box list -/

/-- Counterexample to C3 as stated: `find_split_x` applied directly to an
empty box list returns `some (page_width / 2)`, not `none` — with no boxes
the whole search window `[80, 320)` is one unoccupied gap of width `240`. -/
theorem c3_counterexample :
    find_split_x [] 100 100 = some 50 ∧ find_split_x [] 100 100 ≠ none := by
  have h : find_split_x [] 100 100 = some 50 := by
    rw [find_split_x_nil]
    norm_num
  exact ⟨h, by rw [h]; exact Option.some_ne_none _⟩

/-- **C3 (amended).**  The pipeline `process_page`, the detector's only
caller, returns no split (and no blocks) on an empty fragment list; the
detector itself, applied directly to an empty box list, returns the midpoint
of its search window, `page_width / 2`. -/
theorem c3_empty_input (page_width page_height : ℚ) :
    processPage [] page_width page_height = ([], none) ∧
      find_split_x [] page_width page_height = some (page_width / 2) :=
  ⟨rfl, find_split_x_nil page_width page_height⟩

/-! ### C8: lines and blocks come out ordered by top edge -/

theorem sorted_flatten_pairwise {gs : List (List Item)}
    (h : List.Sorted byY0 gs.flatten) :
    gs.Pairwise (fun g1 g2 => ∀ a ∈ g1, ∀ b ∈ g2, byY0 a b) := by
  induction gs with
  | nil => exact List.Pairwise.nil
  | cons g gs ih =>
    rw [List.flatten_cons] at h
    have h' : List.Pairwise byY0 (g ++ gs.flatten) := h
    rw [List.pairwise_append] at h'
    refine List.Pairwise.cons ?_ (ih h'.2.1)
    intro g2 hg2 a ha b hb
    exact h'.2.2 a ha b (List.mem_flatten.mpr ⟨g2, hg2, hb⟩)

theorem mergeItems_y0_attained (sep : String) (g : List Item) (h : g ≠ []) :
    ∃ it ∈ g, (mergeItems sep g).box.y0 = it.box.y0 := by
  have h' : g.map Item.box ≠ [] := by simpa using h
  obtain ⟨_, ⟨hy0mem, _⟩, _⟩ := mergeBoxes_union (g.map Item.box) h'
  rcases List.mem_map.mp hy0mem with ⟨b, hb, hbe⟩
  rcases List.mem_map.mp hb with ⟨it, hit, rfl⟩
  exact ⟨it, hit, hbe.symm⟩

theorem groups_merge_pairwise (sep : String) :
    ∀ (gs : List (List Item)), (∀ g ∈ gs, g ≠ []) →
      gs.Pairwise (fun g1 g2 => ∀ a ∈ g1, ∀ b ∈ g2, byY0 a b) →
      (gs.map (mergeItems sep)).Pairwise byY0 := by
  intro gs
  induction gs with
  | nil => intro _ _; exact List.Pairwise.nil
  | cons g gs ih =>
    intro hne hp
    rw [List.pairwise_cons] at hp
    simp only [List.map_cons]
    refine List.Pairwise.cons ?_ (ih (fun g' hg' => hne g' (List.mem_cons.mpr (Or.inr hg'))) hp.2)
    intro mb hmb
    rcases List.mem_map.mp hmb with ⟨g2, hg2, rfl⟩
    obtain ⟨a0, ha0, he1⟩ :=
      mergeItems_y0_attained sep g (hne g (List.mem_cons.mpr (Or.inl rfl)))
    obtain ⟨b0, hb0, he2⟩ :=
      mergeItems_y0_attained sep g2 (hne g2 (List.mem_cons.mpr (Or.inr hg2)))
    show (mergeItems sep g).box.y0 ≤ (mergeItems sep g2).box.y0
    rw [he1, he2]
    exact hp.1 g2 hg2 a0 ha0 b0 hb0

theorem clusterGroups_merge_sorted (ok : List Item → Item → Bool) (sep : String)
    (l : List Item) (hl : List.Sorted byY0 l) :
    ((clusterGroups ok l).map (mergeItems sep)).Pairwise byY0 := by
  have hj : (clusterGroups ok l).flatten = l := clusterGroups_join ok l
  have hl' : List.Sorted byY0 (clusterGroups ok l).flatten := by rw [hj]; exact hl
  exact groups_merge_pairwise sep _ (clusterGroups_ne_nil ok l)
    (sorted_flatten_pairwise hl')

/-- **C8.**  For every fragment list and optional split, the lines returned
by line clustering are ordered top-to-bottom by resulting line box `y0`
(non-decreasing), and for every line list the blocks returned by block
clustering are likewise ordered top-to-bottom by block box `y0`. -/
theorem c8_output_ordered (items : List Item) (split : Option ℚ) :
    (clusterLines split items).Pairwise (fun a b => a.box.y0 ≤ b.box.y0) ∧
      ∀ lines : List Item,
        (clusterVertical split lines).Pairwise (fun a b => a.box.y0 ≤ b.box.y0) := by
  constructor
  · exact clusterGroups_merge_sorted (lineOk split) " " _
      (List.sorted_insertionSort byY0 items)
  · intro lines
    unfold clusterVertical blockGroupsOf
    by_cases h : lines.isEmpty
    · simp [h]
    · simp only [h, Bool.false_eq_true, if_false]
      exact clusterGroups_merge_sorted _ "\n" _ (List.sorted_insertionSort byY0 lines)

/-! ### C2: what a block's text actually is -/

/-- First line of the C2 example: starts higher but further right. -/
def c2lineA : Item := ⟨"A", ⟨50, 0, 150, 10⟩⟩

/-- Second line of the C2 example: lower but starting further left, so the
`x0` sort of `_merge_items` puts its text first. -/
def c2lineB : Item := ⟨"B", ⟨10, 12, 110, 22⟩⟩

/-- Counterexample to C2 as stated: the two lines merge into a single block
in vertical order `[A, B]`, yet the block's text is `"B\nA"`, not the
vertical-order join `"A\nB"`, because `_merge_items` sorts the constituent
lines by left edge `x0` before joining. -/
theorem c2_counterexample :
    blockGroupsOf none [c2lineA, c2lineB] = [[c2lineA, c2lineB]] ∧
      (clusterVertical none [c2lineA, c2lineB]).map Item.text = ["B\nA"] ∧
      "B\nA" ≠ String.intercalate "\n" ([c2lineA, c2lineB].map Item.text) := by
  refine ⟨by with_unfolding_all rfl, by with_unfolding_all rfl, ?_⟩
  decide

/-- **C2 (amended).**  Every block produced by block clustering is the merge
of one group of constituent lines, and its text is those lines' texts joined
with a newline in ascending-`x0` (stable) order — which coincides with the
vertical merge order exactly when the constituents' left edges are already
non-decreasing in that order. -/
theorem c2_block_text_joined (split : Option ℚ) (lines : List Item) :
    ∀ b ∈ clusterVertical split lines,
      ∃ g ∈ blockGroupsOf split lines,
        b = mergeItems "\n" g ∧
        b.text = String.intercalate "\n" ((List.insertionSort byX0 g).map Item.text) ∧
        (List.Pairwise byX0 g → b.text = String.intercalate "\n" (g.map Item.text)) := by
  intro b hb
  unfold clusterVertical at hb
  rcases List.mem_map.mp hb with ⟨g, hg, rfl⟩
  refine ⟨g, hg, rfl, rfl, ?_⟩
  intro hsorted
  have hs : List.Sorted byX0 g := hsorted
  show (mergeItems "\n" g).text = _
  simp only [mergeItems]
  rw [List.Sorted.insertionSort_eq hs]

/-- Witness for C2 (amended) at the concrete two-line block. -/
theorem c2_witness :
    ∃ g ∈ blockGroupsOf none [c2lineA, c2lineB],
      (⟨"B\nA", ⟨10, 0, 150, 22⟩⟩ : Item) = mergeItems "\n" g ∧
      (⟨"B\nA", ⟨10, 0, 150, 22⟩⟩ : Item).text =
        String.intercalate "\n" ((List.insertionSort byX0 g).map Item.text) ∧
      (List.Pairwise byX0 g →
        (⟨"B\nA", ⟨10, 0, 150, 22⟩⟩ : Item).text =
          String.intercalate "\n" (g.map Item.text)) := by
  have hmem : (⟨"B\nA", ⟨10, 0, 150, 22⟩⟩ : Item) ∈
      clusterVertical none [c2lineA, c2lineB] := by
    have he : clusterVertical none [c2lineA, c2lineB] =
        [⟨"B\nA", ⟨10, 0, 150, 22⟩⟩] := by with_unfolding_all rfl
    rw [he]
    exact List.mem_singleton.mpr rfl
  exact c2_block_text_joined none [c2lineA, c2lineB] _ hmem

/-! ### Instrumented pipeline: lines paired with their fragment groups

To reason about which original fragments end up in which block, the block
stage is replayed on pairs `(merged line, its fragment group)`; the decision
function only inspects the first component, so the pair pipeline projects
onto the real one. -/

/-- `byY0` lifted to the first component of a pair. -/
def byY0P (p q : Item × List Item) : Prop := byY0 p.1 q.1

instance : DecidableRel byY0P := fun p q =>
  inferInstanceAs (Decidable (byY0 p.1 q.1))

/-- Each produced line together with the fragment group it was merged from. -/
def linePairs (split : Option ℚ) (items : List Item) : List (Item × List Item) :=
  (lineGroupsOf split items).map fun g => (mergeItems " " g, g)

/-- The block-merge decision on pairs: look only at the merged lines. -/
def blockOkP (global_avg_h : ℚ) (split : Option ℚ)
    (cur : List (Item × List Item)) (y : Item × List Item) : Bool :=
  blockMergeB global_avg_h split (cur.map Prod.fst) y.1

/-- The block grouping of `_cluster_vertical`, replayed on pairs. -/
def blockPairGroupsOf (split : Option ℚ) (items : List Item) :
    List (List (Item × List Item)) :=
  let lp := linePairs split items
  if lp.isEmpty then []
  else clusterGroups (blockOkP (globalAvgHeight (lp.map Prod.fst)) split)
    (List.insertionSort byY0P lp)

/-- The original fragments contained in each produced block. -/
def blockFragGroups (split : Option ℚ) (items : List Item) : List (List Item) :=
  (blockPairGroupsOf split items).map fun bg => (bg.map Prod.snd).flatten

theorem map_fst_linePairs (split : Option ℚ) (items : List Item) :
    (linePairs split items).map Prod.fst = clusterLines split items := by
  unfold linePairs clusterLines
  rw [List.map_map]
  rfl

theorem map_snd_linePairs (split : Option ℚ) (items : List Item) :
    (linePairs split items).map Prod.snd = lineGroupsOf split items := by
  unfold linePairs
  rw [List.map_map]
  exact List.map_id _

theorem orderedInsert_map_fst (p : Item × List Item) :
    ∀ l : List (Item × List Item),
      (List.orderedInsert byY0P p l).map Prod.fst =
        List.orderedInsert byY0 p.1 (l.map Prod.fst) := by
  intro l
  induction l with
  | nil => rfl
  | cons q l ih =>
    simp only [List.orderedInsert, List.map_cons]
    by_cases h : byY0P p q
    · rw [if_pos h, if_pos (show byY0 p.1 q.1 from h)]
      simp
    · rw [if_neg h, if_neg (show ¬byY0 p.1 q.1 from h)]
      simp [ih]

theorem insertionSort_map_fst :
    ∀ l : List (Item × List Item),
      (List.insertionSort byY0P l).map Prod.fst =
        List.insertionSort byY0 (l.map Prod.fst) := by
  intro l
  induction l with
  | nil => rfl
  | cons p l ih =>
    simp only [List.insertionSort, List.map_cons]
    rw [orderedInsert_map_fst, ih]

theorem clusterGo_map_fst (global_avg_h : ℚ) (split : Option ℚ) :
    ∀ (l cur : List (Item × List Item)),
      (clusterGo (blockOkP global_avg_h split) cur l).map (List.map Prod.fst) =
        clusterGo (blockMergeB global_avg_h split) (cur.map Prod.fst)
          (l.map Prod.fst) := by
  intro l
  induction l with
  | nil => intro cur; rfl
  | cons y ys ih =>
    intro cur
    simp only [clusterGo, List.map_cons]
    have hcond : blockOkP global_avg_h split cur y =
        blockMergeB global_avg_h split (cur.map Prod.fst) y.1 := rfl
    rw [← hcond]
    by_cases h : blockOkP global_avg_h split cur y = true
    · rw [if_pos h, if_pos h]
      rw [ih (cur ++ [y])]
      simp
    · rw [if_neg h, if_neg h]
      simp only [List.map_cons]
      rw [ih [y]]
      rfl

theorem clusterGroups_map_fst (global_avg_h : ℚ) (split : Option ℚ)
    (l : List (Item × List Item)) :
    (clusterGroups (blockOkP global_avg_h split) l).map (List.map Prod.fst) =
      clusterGroups (blockMergeB global_avg_h split) (l.map Prod.fst) := by
  cases l with
  | nil => rfl
  | cons x xs =>
    simp only [clusterGroups, List.map_cons]
    exact clusterGo_map_fst global_avg_h split xs [x]

theorem blockPairGroups_map_fst (split : Option ℚ) (items : List Item) :
    (blockPairGroupsOf split items).map (List.map Prod.fst) =
      blockGroupsOf split (clusterLines split items) := by
  unfold blockPairGroupsOf blockGroupsOf
  have hfst := map_fst_linePairs split items
  have hemp : (linePairs split items).isEmpty = (clusterLines split items).isEmpty := by
    rw [← hfst]
    cases linePairs split items <;> rfl
  by_cases h : (linePairs split items).isEmpty
  · rw [if_pos h, if_pos (hemp ▸ h)]
    rfl
  · rw [if_neg h, if_neg (fun hc => h (hemp ▸ hc))]
    rw [clusterGroups_map_fst, insertionSort_map_fst, hfst]

theorem clusterVertical_eq_pairs (split : Option ℚ) (items : List Item) :
    clusterVertical split (clusterLines split items) =
      (blockPairGroupsOf split items).map
        (fun bg => mergeItems "\n" (bg.map Prod.fst)) := by
  unfold clusterVertical
  rw [← blockPairGroups_map_fst, List.map_map]
  rfl

theorem blockPairGroups_flatten_perm (split : Option ℚ) (items : List Item) :
    (blockPairGroupsOf split items).flatten.Perm (linePairs split items) := by
  unfold blockPairGroupsOf
  by_cases h : (linePairs split items).isEmpty
  · rw [if_pos h, List.isEmpty_iff.mp h]
    rfl
  · rw [if_neg h, clusterGroups_join]
    exact List.perm_insertionSort byY0P (linePairs split items)

theorem blockFragGroups_flatten_eq (split : Option ℚ) (items : List Item) :
    (blockFragGroups split items).flatten =
      ((blockPairGroupsOf split items).flatten.map Prod.snd).flatten := by
  unfold blockFragGroups
  generalize blockPairGroupsOf split items = bgs
  induction bgs with
  | nil => rfl
  | cons bg bgs ih =>
    simp only [List.map_cons, List.flatten_cons, List.map_append, List.flatten_append]
    rw [ih]

theorem blockFragGroups_flatten_perm (split : Option ℚ) (items : List Item) :
    (blockFragGroups split items).flatten.Perm items := by
  rw [blockFragGroups_flatten_eq]
  have h1 : ((blockPairGroupsOf split items).flatten.map Prod.snd).Perm
      (lineGroupsOf split items) := by
    have := (blockPairGroups_flatten_perm split items).map Prod.snd
    rw [map_snd_linePairs] at this
    exact this
  refine (h1.flatten).trans ?_
  unfold lineGroupsOf
  rw [clusterGroups_join]
  exact List.perm_insertionSort byY0 items

/-! ### C10: the pipeline partitions its input -/

/-- **C10.**  The pipeline partitions its input: the fragment groups of the
lines concatenate to a permutation of the input (each fragment in exactly
one line), the line list is partitioned into the block groups (each line in
exactly one block), each returned block is the merge of one block group of
lines, the per-block fragment groups concatenate to a permutation of the
input (no fragment dropped or duplicated), and hence the multiset of
fragment texts across blocks equals the multiset of input texts. -/
theorem c10_pipeline_partitions (items : List Item) (page_width page_height : ℚ) :
    ((lineGroupsOf (find_split_x (items.map Item.box) page_width page_height)
        items).flatten).Perm items ∧
    ((blockGroupsOf (find_split_x (items.map Item.box) page_width page_height)
        (clusterLines (find_split_x (items.map Item.box) page_width page_height)
          items)).flatten).Perm
      (clusterLines (find_split_x (items.map Item.box) page_width page_height) items) ∧
    (processPage items page_width page_height).1 =
      (blockPairGroupsOf (find_split_x (items.map Item.box) page_width page_height)
        items).map (fun bg => mergeItems "\n" (bg.map Prod.fst)) ∧
    ((blockFragGroups (find_split_x (items.map Item.box) page_width page_height)
        items).flatten).Perm items ∧
    (((blockFragGroups (find_split_x (items.map Item.box) page_width page_height)
        items).map (List.map Item.text)).flatten).Perm (items.map Item.text) := by
  set sp := find_split_x (items.map Item.box) page_width page_height with hsp
  refine ⟨?_, ?_, ?_, ?_, ?_⟩
  · unfold lineGroupsOf
    rw [clusterGroups_join]
    exact List.perm_insertionSort byY0 items
  · unfold blockGroupsOf
    by_cases h : (clusterLines sp items).isEmpty
    · rw [if_pos h, List.isEmpty_iff.mp h]
      rfl
    · rw [if_neg h, clusterGroups_join]
      exact List.perm_insertionSort byY0 (clusterLines sp items)
  · by_cases h : items.isEmpty
    · have hnil : items = [] := List.isEmpty_iff.mp h
      subst hnil
      rfl
    · unfold processPage
      rw [if_neg (fun hc => h hc)]
      exact clusterVertical_eq_pairs sp items
  · exact blockFragGroups_flatten_perm sp items
  · have h := (blockFragGroups_flatten_perm sp items).map Item.text
    rw [List.map_flatten] at h
    exact h

/-! ### C1: the split barrier versus fragments straddling the split -/

/-- A fragment whose (valid) box lies entirely left of the split, beyond the
5-unit buffer. -/
def SideL (s : ℚ) (it : Item) : Prop :=
  it.box.x0 ≤ it.box.x1 ∧ it.box.x1 < s - 5

/-- A fragment whose (valid) box lies entirely right of the split, beyond
the 5-unit buffer. -/
def SideR (s : ℚ) (it : Item) : Prop :=
  it.box.x0 ≤ it.box.x1 ∧ s + 5 < it.box.x0

/-- A group of fragments all on the same side of the split. -/
def Homog (s : ℚ) (g : List Item) : Prop :=
  (∀ a ∈ g, SideL s a) ∨ (∀ a ∈ g, SideR s a)

theorem lineCrosses_of_LR {s : ℚ} (hs : s ≠ 0) {a b : Item}
    (hL : SideL s a) (hR : SideR s b) :
    lineCrossesBarrier (some s) a.box b.box = true := by
  simp only [lineCrossesBarrier, if_neg hs, Bool.or_eq_true, Bool.and_eq_true,
    decide_eq_true_iff]
  left
  constructor
  · linarith [hL.2]
  · linarith [hR.2]

theorem lineCrosses_of_RL {s : ℚ} (hs : s ≠ 0) {a b : Item}
    (hR : SideR s a) (hL : SideL s b) :
    lineCrossesBarrier (some s) a.box b.box = true := by
  simp only [lineCrossesBarrier, if_neg hs, Bool.or_eq_true, Bool.and_eq_true,
    decide_eq_true_iff]
  right
  constructor
  · linarith [hR.2]
  · linarith [hL.2]

theorem lineMergeB_false_of_cross {split : Option ℚ} {a b : Item}
    (h : lineCrossesBarrier split a.box b.box = true) :
    lineMergeB split a b = false := by
  simp [lineMergeB, h]

theorem clusterGo_line_homog {s : ℚ} (hs : s ≠ 0) :
    ∀ (l cur : List Item), cur ≠ [] → Homog s cur →
      (∀ it ∈ l, SideL s it ∨ SideR s it) →
      ∀ g ∈ clusterGo (lineOk (some s)) cur l, Homog s g := by
  intro l
  induction l with
  | nil =>
    intro cur _ hcur _ g hg
    have hgc : g = cur := by simpa [clusterGo] using hg
    exact hgc ▸ hcur
  | cons y ys ih =>
    intro cur hne hcur hl g hg
    have hy : SideL s y ∨ SideR s y := hl y (List.mem_cons.mpr (Or.inl rfl))
    have hys : ∀ it ∈ ys, SideL s it ∨ SideR s it :=
      fun it hit => hl it (List.mem_cons.mpr (Or.inr hit))
    by_cases hok : lineOk (some s) cur y = true
    · simp only [clusterGo] at hg
      rw [if_pos hok] at hg
      refine ih (cur ++ [y]) (by simp) ?_ hys g hg
      have hlast := List.getLast?_eq_getLast cur hne
      have hmem : cur.getLast hne ∈ cur := List.getLast_mem hne
      have hok' : lineMergeB (some s) (cur.getLast hne) y = true := by
        unfold lineOk at hok
        rw [hlast] at hok
        exact hok
      rcases hcur with hall | hall
      · rcases hy with hyL | hyR
        · left
          intro a ha
          rcases List.mem_append.mp ha with h | h
          · exact hall a h
          · rw [List.mem_singleton.mp h]; exact hyL
        · exact absurd hok'
            (by rw [lineMergeB_false_of_cross (lineCrosses_of_LR hs (hall _ hmem) hyR)]
                simp)
      · rcases hy with hyL | hyR
        · exact absurd hok'
            (by rw [lineMergeB_false_of_cross (lineCrosses_of_RL hs (hall _ hmem) hyL)]
                simp)
        · right
          intro a ha
          rcases List.mem_append.mp ha with h | h
          · exact hall a h
          · rw [List.mem_singleton.mp h]; exact hyR
    · simp only [clusterGo] at hg
      rw [if_neg hok] at hg
      rcases List.mem_cons.mp hg with rfl | hg'
      · exact hcur
      · refine ih [y] (by simp) ?_ hys g hg'
        rcases hy with hyL | hyR
        · left; intro a ha; rw [List.mem_singleton.mp ha]; exact hyL
        · right; intro a ha; rw [List.mem_singleton.mp ha]; exact hyR

theorem clusterGroups_line_homog {s : ℚ} (hs : s ≠ 0) (l : List Item)
    (hl : ∀ it ∈ l, SideL s it ∨ SideR s it) :
    ∀ g ∈ clusterGroups (lineOk (some s)) l, Homog s g := by
  cases l with
  | nil => intro g hg; simp [clusterGroups] at hg
  | cons x xs =>
    intro g hg
    have hx := hl x (List.mem_cons.mpr (Or.inl rfl))
    refine clusterGo_line_homog hs xs [x] (by simp) ?_
      (fun it hit => hl it (List.mem_cons.mpr (Or.inr hit))) g
      (by simpa [clusterGroups] using hg)
    rcases hx with hxL | hxR
    · left; intro a ha; rw [List.mem_singleton.mp ha]; exact hxL
    · right; intro a ha; rw [List.mem_singleton.mp ha]; exact hxR

theorem lineGroups_homog {s : ℚ} (hs : s ≠ 0) (items : List Item)
    (hitems : ∀ it ∈ items, SideL s it ∨ SideR s it) :
    ∀ g ∈ lineGroupsOf (some s) items, Homog s g := by
  unfold lineGroupsOf
  refine clusterGroups_line_homog hs _ ?_
  intro it hit
  exact hitems it ((List.perm_insertionSort byY0 items).subset hit)

theorem mergeItems_sideL {s : ℚ} (sep : String) (g : List Item) (hne : g ≠ [])
    (h : ∀ a ∈ g, SideL s a) : SideL s (mergeItems sep g) := by
  have hne' : g.map Item.box ≠ [] := by simpa using hne
  obtain ⟨⟨hx0mem, _⟩, _, ⟨hx1mem, hx1ge⟩, _⟩ := mergeBoxes_union (g.map Item.box) hne'
  rcases List.mem_map.mp hx0mem with ⟨b0, hb0, hb0e⟩
  rcases List.mem_map.mp hb0 with ⟨it0, hit0, rfl⟩
  rcases List.mem_map.mp hx1mem with ⟨b1, hb1, hb1e⟩
  rcases List.mem_map.mp hb1 with ⟨it1, hit1, rfl⟩
  have hbox : (mergeItems sep g).box = mergeBoxes (g.map Item.box) := rfl
  constructor
  · rw [hbox, ← hb0e]
    exact le_trans (h it0 hit0).1
      (hx1ge it0.box (List.mem_map.mpr ⟨it0, hit0, rfl⟩))
  · rw [hbox, ← hb1e]
    exact (h it1 hit1).2

theorem mergeItems_sideR {s : ℚ} (sep : String) (g : List Item) (hne : g ≠ [])
    (h : ∀ a ∈ g, SideR s a) : SideR s (mergeItems sep g) := by
  have hne' : g.map Item.box ≠ [] := by simpa using hne
  obtain ⟨⟨hx0mem, _⟩, _, ⟨hx1mem, hx1ge⟩, _⟩ := mergeBoxes_union (g.map Item.box) hne'
  rcases List.mem_map.mp hx0mem with ⟨b0, hb0, hb0e⟩
  rcases List.mem_map.mp hb0 with ⟨it0, hit0, rfl⟩
  have hbox : (mergeItems sep g).box = mergeBoxes (g.map Item.box) := rfl
  constructor
  · rw [hbox, ← hb0e]
    exact le_trans (h it0 hit0).1
      (hx1ge it0.box (List.mem_map.mpr ⟨it0, hit0, rfl⟩))
  · rw [hbox, ← hb0e]
    exact (h it0 hit0).2

theorem blockCrosses_of_LR {s : ℚ} (hs : s ≠ 0) (cur : List Item) (hne : cur ≠ [])
    (hL : ∀ p ∈ cur, SideL s p) {y : Item} (hR : SideR s y) :
    blockCrossesBarrier (some s) cur y = true := by
  have hne' : cur.map Item.box ≠ [] := by simpa using hne
  obtain ⟨⟨hx0mem, _⟩, _, ⟨hx1mem, hx1ge⟩, _⟩ := mergeBoxes_union (cur.map Item.box) hne'
  rcases List.mem_map.mp hx0mem with ⟨b0, hb0, hb0e⟩
  rcases List.mem_map.mp hb0 with ⟨it0, hit0, rfl⟩
  rcases List.mem_map.mp hx1mem with ⟨b1, hb1, hb1e⟩
  rcases List.mem_map.mp hb1 with ⟨it1, hit1, rfl⟩
  have hx0 : (mergeBoxes (cur.map Item.box)).x0 ≤ (mergeBoxes (cur.map Item.box)).x1 := by
    rw [← hb0e]
    exact le_trans (hL it0 hit0).1
      (hx1ge it0.box (List.mem_map.mpr ⟨it0, hit0, rfl⟩))
  have hx1 : (mergeBoxes (cur.map Item.box)).x1 < s - 5 := by
    rw [← hb1e]
    exact (hL it1 hit1).2
  have hbc : boxCenter (mergeBoxes (cur.map Item.box)) < s := by
    unfold boxCenter
    linarith
  have hlc : ¬boxCenter y.box < s := by
    unfold boxCenter
    obtain ⟨hv, hc⟩ := hR
    linarith
  simp only [blockCrossesBarrier, if_neg hs]
  rw [decide_eq_true hbc, decide_eq_false hlc]
  rfl

theorem blockCrosses_of_RL {s : ℚ} (hs : s ≠ 0) (cur : List Item) (hne : cur ≠ [])
    (hRc : ∀ p ∈ cur, SideR s p) {y : Item} (hLy : SideL s y) :
    blockCrossesBarrier (some s) cur y = true := by
  have hne' : cur.map Item.box ≠ [] := by simpa using hne
  obtain ⟨⟨hx0mem, hx0le⟩, _, ⟨_, hx1ge⟩, _⟩ := mergeBoxes_union (cur.map Item.box) hne'
  rcases List.mem_map.mp hx0mem with ⟨b0, hb0, hb0e⟩
  rcases List.mem_map.mp hb0 with ⟨it0, hit0, rfl⟩
  have hx0 : s + 5 < (mergeBoxes (cur.map Item.box)).x0 := by
    rw [← hb0e]
    exact (hRc it0 hit0).2
  have hx01 : (mergeBoxes (cur.map Item.box)).x0 ≤ (mergeBoxes (cur.map Item.box)).x1 := by
    rw [← hb0e]
    exact le_trans (hRc it0 hit0).1
      (hx1ge it0.box (List.mem_map.mpr ⟨it0, hit0, rfl⟩))
  have hbc : ¬boxCenter (mergeBoxes (cur.map Item.box)) < s := by
    unfold boxCenter
    linarith
  have hlc : boxCenter y.box < s := by
    unfold boxCenter
    obtain ⟨hv, hc⟩ := hLy
    linarith
  simp only [blockCrossesBarrier, if_neg hs]
  rw [decide_eq_false hbc, decide_eq_true hlc]
  rfl

theorem blockMergeB_false_of_cross {global_avg_h : ℚ} {split : Option ℚ}
    {cur : List Item} {y last : Item} (hlast : cur.getLast? = some last)
    (h : blockCrossesBarrier split cur y = true) :
    blockMergeB global_avg_h split cur y = false := by
  simp [blockMergeB, hlast, h]

/-- A pair all of whose fragments — and whose merged line — are left of the
split. -/
def PSideL (s : ℚ) (p : Item × List Item) : Prop :=
  SideL s p.1 ∧ ∀ a ∈ p.2, SideL s a

/-- A pair entirely right of the split. -/
def PSideR (s : ℚ) (p : Item × List Item) : Prop :=
  SideR s p.1 ∧ ∀ a ∈ p.2, SideR s a

/-- A block group of pairs all on the same side of the split. -/
def HomogP (s : ℚ) (bg : List (Item × List Item)) : Prop :=
  (∀ p ∈ bg, PSideL s p) ∨ (∀ p ∈ bg, PSideR s p)

theorem clusterGo_block_homog {s : ℚ} (hs : s ≠ 0) (global_avg_h : ℚ) :
    ∀ (l cur : List (Item × List Item)), cur ≠ [] → HomogP s cur →
      (∀ p ∈ l, PSideL s p ∨ PSideR s p) →
      ∀ bg ∈ clusterGo (blockOkP global_avg_h (some s)) cur l, HomogP s bg := by
  intro l
  induction l with
  | nil =>
    intro cur _ hcur _ bg hbg
    have hgc : bg = cur := by simpa [clusterGo] using hbg
    exact hgc ▸ hcur
  | cons y ys ih =>
    intro cur hne hcur hl bg hbg
    have hy : PSideL s y ∨ PSideR s y := hl y (List.mem_cons.mpr (Or.inl rfl))
    have hys : ∀ p ∈ ys, PSideL s p ∨ PSideR s p :=
      fun p hp => hl p (List.mem_cons.mpr (Or.inr hp))
    have hnef : cur.map Prod.fst ≠ [] := by simpa using hne
    have hlastf := List.getLast?_eq_getLast (cur.map Prod.fst) hnef
    by_cases hok : blockOkP global_avg_h (some s) cur y = true
    · simp only [clusterGo] at hbg
      rw [if_pos hok] at hbg
      refine ih (cur ++ [y]) (by simp) ?_ hys bg hbg
      have hok' : blockMergeB global_avg_h (some s) (cur.map Prod.fst) y.1 = true := hok
      rcases hcur with hall | hall
      · rcases hy with hyL | hyR
        · left
          intro p hp
          rcases List.mem_append.mp hp with h | h
          · exact hall p h
          · rw [List.mem_singleton.mp h]; exact hyL
        · exfalso
          have hLf : ∀ q ∈ cur.map Prod.fst, SideL s q := by
            intro q hq
            rcases List.mem_map.mp hq with ⟨p, hp, rfl⟩
            exact (hall p hp).1
          have hc := blockCrosses_of_LR hs (cur.map Prod.fst) hnef hLf hyR.1
          have := @blockMergeB_false_of_cross global_avg_h (some s) (cur.map Prod.fst)
            y.1 ((cur.map Prod.fst).getLast hnef) hlastf hc
          rw [hok'] at this
          cases this
      · rcases hy with hyL | hyR
        · exfalso
          have hRf : ∀ q ∈ cur.map Prod.fst, SideR s q := by
            intro q hq
            rcases List.mem_map.mp hq with ⟨p, hp, rfl⟩
            exact (hall p hp).1
          have hc := blockCrosses_of_RL hs (cur.map Prod.fst) hnef hRf hyL.1
          have := @blockMergeB_false_of_cross global_avg_h (some s) (cur.map Prod.fst)
            y.1 ((cur.map Prod.fst).getLast hnef) hlastf hc
          rw [hok'] at this
          cases this
        · right
          intro p hp
          rcases List.mem_append.mp hp with h | h
          · exact hall p h
          · rw [List.mem_singleton.mp h]; exact hyR
    · simp only [clusterGo] at hbg
      rw [if_neg hok] at hbg
      rcases List.mem_cons.mp hbg with rfl | hbg'
      · exact hcur
      · refine ih [y] (by simp) ?_ hys bg hbg'
        rcases hy with hyL | hyR
        · left; intro p hp; rw [List.mem_singleton.mp hp]; exact hyL
        · right; intro p hp; rw [List.mem_singleton.mp hp]; exact hyR

theorem blockPairGroups_homog {s : ℚ} (hs : s ≠ 0) (items : List Item)
    (hitems : ∀ it ∈ items, SideL s it ∨ SideR s it) :
    ∀ bg ∈ blockPairGroupsOf (some s) items, HomogP s bg := by
  have hpairs : ∀ p ∈ linePairs (some s) items, PSideL s p ∨ PSideR s p := by
    intro p hp
    rcases List.mem_map.mp hp with ⟨g, hg, rfl⟩
    have hne : g ≠ [] :=
      clusterGroups_ne_nil (lineOk (some s)) (List.insertionSort byY0 items) g hg
    rcases lineGroups_homog hs items hitems g hg with hall | hall
    · exact Or.inl ⟨mergeItems_sideL " " g hne hall, hall⟩
    · exact Or.inr ⟨mergeItems_sideR " " g hne hall, hall⟩
  unfold blockPairGroupsOf
  by_cases hemp : (linePairs (some s) items).isEmpty
  · rw [if_pos hemp]
    intro bg hbg
    cases hbg
  · rw [if_neg hemp]
    have hsortp : ∀ p ∈ List.insertionSort byY0P (linePairs (some s) items),
        PSideL s p ∨ PSideR s p :=
      fun p hp => hpairs p ((List.perm_insertionSort byY0P _).subset hp)
    intro bg hbg
    revert hbg
    cases hsl : List.insertionSort byY0P (linePairs (some s) items) with
    | nil => intro hbg; simp [clusterGroups] at hbg
    | cons x xs =>
      intro hbg
      rw [hsl] at hsortp
      have hx := hsortp x (List.mem_cons.mpr (Or.inl rfl))
      refine clusterGo_block_homog hs _ xs [x] (by simp) ?_
        (fun p hp => hsortp p (List.mem_cons.mpr (Or.inr hp))) bg
        (by simpa [clusterGroups] using hbg)
      rcases hx with hxL | hxR
      · left; intro p hp; rw [List.mem_singleton.mp hp]; exact hxL
      · right; intro p hp; rw [List.mem_singleton.mp hp]; exact hxR

/-- First fragment of the C1 counterexample: entirely left of the split. -/
def c1fragA : Item := ⟨"A", ⟨0, 0, 40, 10⟩⟩

/-- Middle fragment of the C1 counterexample: its box straddles the split
region, so neither horizontal barrier test fires against it. -/
def c1fragB : Item := ⟨"Bspan", ⟨50, 0, 150, 10⟩⟩

/-- Last fragment of the C1 counterexample: entirely right of the split. -/
def c1fragC : Item := ⟨"C", ⟨160, 0, 200, 10⟩⟩

/-- Counterexample to C1 as stated: with split `100` (buffer 5), the three
fragments fall into one line group, which therefore contains a fragment
entirely left of the split (`x1 = 40 < 95`) and one entirely right of it
(`x0 = 160 > 105`) — the middle fragment bridges them because the barrier
only compares each candidate with the last fragment of the group. -/
theorem c1_counterexample :
    ∃ g ∈ lineGroupsOf (some 100) [c1fragA, c1fragB, c1fragC],
      ∃ a ∈ g, ∃ b ∈ g, a.box.x1 < 100 - 5 ∧ 100 + 5 < b.box.x0 := by
  have he : lineGroupsOf (some 100) [c1fragA, c1fragB, c1fragC] =
      [[c1fragA, c1fragB, c1fragC]] := by with_unfolding_all rfl
  refine ⟨[c1fragA, c1fragB, c1fragC], ?_, c1fragA, ?_, c1fragC, ?_, ?_, ?_⟩
  · rw [he]
    exact List.mem_singleton.mpr rfl
  · exact List.mem_cons.mpr (Or.inl rfl)
  · exact List.mem_cons.mpr (Or.inr (List.mem_cons.mpr (Or.inr
      (List.mem_cons.mpr (Or.inl rfl)))))
  · show (40 : ℚ) < 100 - 5
    norm_num
  · show (100 : ℚ) + 5 < 160
    norm_num

/-- **C1 (amended).**  For every nonzero split `s` and every fragment list in
which each fragment's box is valid (`x0 ≤ x1`) and lies entirely on one side
of `s` beyond the buffer (`x1 < s - 5` or `x0 > s + 5`), no line group and no
block's fragment group contains two fragments on opposite sides of `s`
beyond the buffer.  (Without the one-sidedness restriction the property
fails: a fragment whose box straddles the split region can bridge the two
sides, as the counterexample shows; and a split of exactly `0` disables the
barrier checks via Python truthiness.) -/
theorem c1_barrier_amended (items : List Item) (s : ℚ) (hs : s ≠ 0)
    (hsides : ∀ it ∈ items,
      (it.box.x0 ≤ it.box.x1 ∧ it.box.x1 < s - 5) ∨
        (it.box.x0 ≤ it.box.x1 ∧ s + 5 < it.box.x0)) :
    (∀ g ∈ lineGroupsOf (some s) items, ∀ a ∈ g, ∀ b ∈ g,
        ¬(a.box.x1 < s - 5 ∧ s + 5 < b.box.x0)) ∧
      (∀ g ∈ blockFragGroups (some s) items, ∀ a ∈ g, ∀ b ∈ g,
        ¬(a.box.x1 < s - 5 ∧ s + 5 < b.box.x0)) := by
  have hsides' : ∀ it ∈ items, SideL s it ∨ SideR s it := hsides
  constructor
  · intro g hg a ha b hb hab
    rcases lineGroups_homog hs items hsides' g hg with hall | hall
    · obtain ⟨hv, hx1⟩ := hall b hb
      linarith [hab.2]
    · obtain ⟨hv, hx0⟩ := hall a ha
      linarith [hab.1]
  · intro g hg a ha b hb hab
    rcases List.mem_map.mp hg with ⟨bg, hbg, rfl⟩
    have hhom := blockPairGroups_homog hs items hsides' bg hbg
    have hsidea : SideL s a ∨ SideR s a := by
      rcases List.mem_flatten.mp ha with ⟨l, hl, hal⟩
      rcases List.mem_map.mp hl with ⟨p, hp, rfl⟩
      rcases hhom with hall | hall
      · exact Or.inl ((hall p hp).2 a hal)
      · exact Or.inr ((hall p hp).2 a hal)
    have hsideb : SideL s b ∨ SideR s b := by
      rcases List.mem_flatten.mp hb with ⟨l, hl, hbl⟩
      rcases List.mem_map.mp hl with ⟨p, hp, rfl⟩
      rcases hhom with hall | hall
      · exact Or.inl ((hall p hp).2 b hbl)
      · exact Or.inr ((hall p hp).2 b hbl)
    rcases hhom with hall | hall
    · have : SideL s b := by
        rcases List.mem_flatten.mp hb with ⟨l, hl, hbl⟩
        rcases List.mem_map.mp hl with ⟨p, hp, rfl⟩
        exact (hall p hp).2 b hbl
      obtain ⟨hv, hx1⟩ := this
      linarith [hab.2]
    · have : SideR s a := by
        rcases List.mem_flatten.mp ha with ⟨l, hl, hal⟩
        rcases List.mem_map.mp hl with ⟨p, hp, rfl⟩
        exact (hall p hp).2 a hal
      obtain ⟨hv, hx0⟩ := this
      linarith [hab.1]

/-- Witness for C1 (amended): one fragment per side of split `100`. -/
theorem c1_witness :
    (∀ g ∈ lineGroupsOf (some 100) [⟨"L", ⟨10, 0, 40, 10⟩⟩, ⟨"R", ⟨160, 0, 200, 10⟩⟩],
        ∀ a ∈ g, ∀ b ∈ g, ¬(a.box.x1 < 100 - 5 ∧ 100 + 5 < b.box.x0)) ∧
      (∀ g ∈ blockFragGroups (some 100) [⟨"L", ⟨10, 0, 40, 10⟩⟩, ⟨"R", ⟨160, 0, 200, 10⟩⟩],
        ∀ a ∈ g, ∀ b ∈ g, ¬(a.box.x1 < 100 - 5 ∧ 100 + 5 < b.box.x0)) :=
  c1_barrier_amended [⟨"L", ⟨10, 0, 40, 10⟩⟩, ⟨"R", ⟨160, 0, 200, 10⟩⟩] 100
    (by norm_num)
    (by
      intro it hit
      rcases List.mem_cons.mp hit with rfl | hit'
      · left
        constructor <;> norm_num
      · rcases List.mem_cons.mp hit' with rfl | hit''
        · right
          constructor <;> norm_num
        · cases hit'')

end PdfLayout
